import Mathlib

/-!
Verification of the Barnes-Hut distributed N-body simulation
(`src/n-body/src/main.rs`).

Shallow embedding conventions:
* `f64` values are modelled as rationals (`ℚ`): exact arithmetic, no NaN.
  The comparisons performed by the code (`partial_cmp`, `min_by`, `max_by`,
  `f64::max`) coincide with the rational order on non-NaN inputs, and the
  float formulas are carried over with the same operator association.
* Fallible operations (`unwrap` on an empty iterator, `unwrap` on a
  deserialization result) are modelled with `Option`, `none` standing for
  the panic/abort.
* The spatial tree lives in `mod tree` (file `tree.rs`), which is not part
  of the provided sources; where a claim depends on it, the tree type and
  its codec are modelled from the specification (marked `Modelled from the
  spec:` below).  Claims about *which* bodies or trees the pipeline feeds
  into tree operations are stated generically, directly from the loops in
  `main.rs`.
-/

namespace NBody

/-- Body record from `main.rs` (`struct Body`): an id, a mass, a 2-D
position and a 2-D velocity.  Floats are modelled as `ℚ`. -/
structure Body where
  id : Nat
  mass : ℚ
  position : ℚ × ℚ
  velocity : ℚ × ℚ
deriving DecidableEq

/-- Embedding of `calc_velocity` (main.rs lines 363-367):
componentwise `v + f / mass * timestep`. -/
def calc_velocity (old_velocity force : ℚ × ℚ) (mass timestep : ℚ) : ℚ × ℚ :=
  (old_velocity.1 + force.1 / mass * timestep,
   old_velocity.2 + force.2 / mass * timestep)

/-- Embedding of `calc_position` (main.rs lines 374-378):
componentwise `x + v * timestep`, where `v` is the (new) velocity. -/
def calc_position (velocity old_position : ℚ × ℚ) (timestep : ℚ) : ℚ × ℚ :=
  (old_position.1 + velocity.1 * timestep,
   old_position.2 + velocity.2 * timestep)

/-- Embedding of the force/integration phase body update (main.rs lines
213-221): a body with zero mass returns immediately unchanged; otherwise
the force is computed against the tree, the velocity is updated first via
`calc_velocity`, and the position is then updated from the *new* velocity
via `calc_position`.  The force evaluation `root.calculate_force(b, theta)`
lives in the missing `tree.rs`, so it is abstracted as a parameter
`force : Body → ℚ × ℚ`; the claims settled here hold for every force
function. -/
def update_body (force : Body → ℚ × ℚ) (timestep : ℚ) (b : Body) : Body :=
  if b.mass = 0 then b
  else
    let f := force b
    let v := calc_velocity b.velocity f b.mass timestep
    { b with velocity := v, position := calc_position v b.position timestep }

/-- Embedding of `get_bounds` (main.rs lines 71-98): per-axis minima and
maxima of the positions, as `((x_min, x_max), (y_min, y_max))`.  The
`min_by(..).unwrap()` on an empty iterator panics, modelled as `none`. -/
def get_bounds (positions : List (ℚ × ℚ)) : Option ((ℚ × ℚ) × (ℚ × ℚ)) :=
  match positions with
  | [] => none
  | p :: rest =>
      some ((rest.foldl (fun a q => min a q.1) p.1,
             rest.foldl (fun a q => max a q.1) p.1),
            (rest.foldl (fun a q => min a q.2) p.2,
             rest.foldl (fun a q => max a q.2) p.2))

/-- Embedding of the per-step domain computation in `main` (main.rs lines
288-302): `size = max(x_max - x_min, y_max - y_min)` and
`center = ((x_min + x_max)/2, (y_min + y_max)/2)`. -/
def step_domain (positions : List (ℚ × ℚ)) : Option ((ℚ × ℚ) × ℚ) :=
  match get_bounds positions with
  | none => none
  | some ((xlo, xhi), (ylo, yhi)) =>
      some (((xlo + xhi) / 2, (ylo + yhi) / 2), max (xhi - xlo) (yhi - ylo))

/-- C1: the integration step follows symplectic Euler, with the position
update reading the already-updated velocity; `update_body` is a pure
function of its inputs, hence deterministic. -/
theorem integration_step_spec (force : Body → ℚ × ℚ) (dt : ℚ) (b : Body)
    (h : b.mass ≠ 0) :
    (update_body force dt b).velocity =
      (b.velocity.1 + (force b).1 / b.mass * dt,
       b.velocity.2 + (force b).2 / b.mass * dt) ∧
    (update_body force dt b).position =
      (b.position.1 + (b.velocity.1 + (force b).1 / b.mass * dt) * dt,
       b.position.2 + (b.velocity.2 + (force b).2 / b.mass * dt) * dt) := by
  simp [update_body, calc_velocity, calc_position, h]

/-- Witness for C1 at a concrete body of mass 2. -/
theorem integration_step_spec_witness :
    (Body.mk 0 2 (1, 1) (3, 4)).mass ≠ 0 ∧
    ((update_body (fun _ => (5, 6)) 1 (Body.mk 0 2 (1, 1) (3, 4))).velocity =
      ((Body.mk 0 2 (1, 1) (3, 4)).velocity.1 +
        ((fun (_ : Body) => ((5 : ℚ), (6 : ℚ))) (Body.mk 0 2 (1, 1) (3, 4))).1 /
          (Body.mk 0 2 (1, 1) (3, 4)).mass * 1,
       (Body.mk 0 2 (1, 1) (3, 4)).velocity.2 +
        ((fun (_ : Body) => ((5 : ℚ), (6 : ℚ))) (Body.mk 0 2 (1, 1) (3, 4))).2 /
          (Body.mk 0 2 (1, 1) (3, 4)).mass * 1) ∧
     (update_body (fun _ => (5, 6)) 1 (Body.mk 0 2 (1, 1) (3, 4))).position =
      ((Body.mk 0 2 (1, 1) (3, 4)).position.1 +
        ((Body.mk 0 2 (1, 1) (3, 4)).velocity.1 +
          ((fun (_ : Body) => ((5 : ℚ), (6 : ℚ))) (Body.mk 0 2 (1, 1) (3, 4))).1 /
            (Body.mk 0 2 (1, 1) (3, 4)).mass * 1) * 1,
       (Body.mk 0 2 (1, 1) (3, 4)).position.2 +
        ((Body.mk 0 2 (1, 1) (3, 4)).velocity.2 +
          ((fun (_ : Body) => ((5 : ℚ), (6 : ℚ))) (Body.mk 0 2 (1, 1) (3, 4))).2 /
            (Body.mk 0 2 (1, 1) (3, 4)).mass * 1) * 1)) :=
  ⟨by decide, integration_step_spec (fun _ => (5, 6)) 1 (Body.mk 0 2 (1, 1) (3, 4)) (by decide)⟩

/-- Folding `min` of a key over a list stays below the initial accumulator. -/
lemma foldl_min_le_init {α : Type} (f : α → ℚ) (l : List α) (a : ℚ) :
    l.foldl (fun acc q => min acc (f q)) a ≤ a := by
  induction l generalizing a with
  | nil => exact le_refl a
  | cons x xs ih => exact le_trans (ih (min a (f x))) (min_le_left _ _)

/-- Folding `min` of a key over a list is below the key of every member. -/
lemma foldl_min_le_mem {α : Type} (f : α → ℚ) (l : List α) (a : ℚ) (x : α)
    (hx : x ∈ l) : l.foldl (fun acc q => min acc (f q)) a ≤ f x := by
  induction l generalizing a with
  | nil => cases hx
  | cons y ys ih =>
    rcases List.mem_cons.mp hx with h | h
    · subst h
      exact le_trans (foldl_min_le_init f ys (min a (f x))) (min_le_right _ _)
    · exact ih (min a (f y)) h

/-- The fold of `min` is either the initial accumulator or attained at a
member of the list. -/
lemma foldl_min_attained {α : Type} (f : α → ℚ) (l : List α) (a : ℚ) :
    l.foldl (fun acc q => min acc (f q)) a = a ∨
      ∃ x ∈ l, l.foldl (fun acc q => min acc (f q)) a = f x := by
  induction l generalizing a with
  | nil => exact Or.inl rfl
  | cons y ys ih =>
    rcases ih (min a (f y)) with h | ⟨x, hx, h⟩
    · rcases min_cases a (f y) with ⟨hm, _⟩ | ⟨hm, _⟩
      · exact Or.inl (by simpa [hm] using h)
      · exact Or.inr ⟨y, List.mem_cons_self .., by simpa [hm] using h⟩
    · exact Or.inr ⟨x, List.mem_cons_of_mem _ hx, h⟩

/-- Folding `max` of a key over a list stays above the initial accumulator. -/
lemma le_foldl_max_init {α : Type} (f : α → ℚ) (l : List α) (a : ℚ) :
    a ≤ l.foldl (fun acc q => max acc (f q)) a := by
  induction l generalizing a with
  | nil => exact le_refl a
  | cons x xs ih => exact le_trans (le_max_left _ _) (ih (max a (f x)))

/-- Folding `max` of a key over a list is above the key of every member. -/
lemma le_foldl_max_mem {α : Type} (f : α → ℚ) (l : List α) (a : ℚ) (x : α)
    (hx : x ∈ l) : f x ≤ l.foldl (fun acc q => max acc (f q)) a := by
  induction l generalizing a with
  | nil => cases hx
  | cons y ys ih =>
    rcases List.mem_cons.mp hx with h | h
    · subst h
      exact le_trans (le_max_right _ _) (le_foldl_max_init f ys (max a (f x)))
    · exact ih (max a (f y)) h

/-- The fold of `max` is either the initial accumulator or attained at a
member of the list. -/
lemma foldl_max_attained {α : Type} (f : α → ℚ) (l : List α) (a : ℚ) :
    l.foldl (fun acc q => max acc (f q)) a = a ∨
      ∃ x ∈ l, l.foldl (fun acc q => max acc (f q)) a = f x := by
  induction l generalizing a with
  | nil => exact Or.inl rfl
  | cons y ys ih =>
    rcases ih (max a (f y)) with h | ⟨x, hx, h⟩
    · rcases max_cases a (f y) with ⟨hm, _⟩ | ⟨hm, _⟩
      · exact Or.inl (by simpa [hm] using h)
      · exact Or.inr ⟨y, List.mem_cons_self .., by simpa [hm] using h⟩
    · exact Or.inr ⟨x, List.mem_cons_of_mem _ hx, h⟩

/-- C2: on a non-empty position list, `get_bounds` returns the per-axis
minima and maxima (bounding and attained), the step domain is the square
with `size = max(x_max - x_min, y_max - y_min)` centered at the bounding
box center, and every input position lies inside that square. -/
theorem bounds_square_domain (positions : List (ℚ × ℚ))
    (hne : positions ≠ []) :
    ∃ xlo xhi ylo yhi,
      get_bounds positions = some ((xlo, xhi), (ylo, yhi)) ∧
      (∀ p ∈ positions, xlo ≤ p.1 ∧ p.1 ≤ xhi ∧ ylo ≤ p.2 ∧ p.2 ≤ yhi) ∧
      xlo ∈ positions.map Prod.fst ∧ xhi ∈ positions.map Prod.fst ∧
      ylo ∈ positions.map Prod.snd ∧ yhi ∈ positions.map Prod.snd ∧
      step_domain positions =
        some (((xlo + xhi) / 2, (ylo + yhi) / 2), max (xhi - xlo) (yhi - ylo)) ∧
      (∀ p ∈ positions,
        (xlo + xhi) / 2 - max (xhi - xlo) (yhi - ylo) / 2 ≤ p.1 ∧
        p.1 ≤ (xlo + xhi) / 2 + max (xhi - xlo) (yhi - ylo) / 2 ∧
        (ylo + yhi) / 2 - max (xhi - xlo) (yhi - ylo) / 2 ≤ p.2 ∧
        p.2 ≤ (ylo + yhi) / 2 + max (xhi - xlo) (yhi - ylo) / 2) := by
  obtain ⟨p, rest, rfl⟩ : ∃ p rest, positions = p :: rest := by
    cases positions with
    | nil => exact absurd rfl hne
    | cons p rest => exact ⟨p, rest, rfl⟩
  refine ⟨rest.foldl (fun a q => min a q.1) p.1,
          rest.foldl (fun a q => max a q.1) p.1,
          rest.foldl (fun a q => min a q.2) p.2,
          rest.foldl (fun a q => max a q.2) p.2, ?_, ?_, ?_, ?_, ?_, ?_, ?_, ?_⟩
  · rfl
  · intro q hq
    rcases List.mem_cons.mp hq with h | h
    · subst h
      exact ⟨foldl_min_le_init _ _ _, le_foldl_max_init _ _ _,
             foldl_min_le_init _ _ _, le_foldl_max_init _ _ _⟩
    · exact ⟨foldl_min_le_mem _ _ _ _ h, le_foldl_max_mem _ _ _ _ h,
             foldl_min_le_mem _ _ _ _ h, le_foldl_max_mem _ _ _ _ h⟩
  · rcases foldl_min_attained Prod.fst rest p.1 with h | ⟨x, hx, h⟩
    · rw [h]; exact List.mem_map_of_mem _ (List.mem_cons_self ..)
    · rw [h]; exact List.mem_map_of_mem _ (List.mem_cons_of_mem _ hx)
  · rcases foldl_max_attained Prod.fst rest p.1 with h | ⟨x, hx, h⟩
    · rw [h]; exact List.mem_map_of_mem _ (List.mem_cons_self ..)
    · rw [h]; exact List.mem_map_of_mem _ (List.mem_cons_of_mem _ hx)
  · rcases foldl_min_attained Prod.snd rest p.2 with h | ⟨x, hx, h⟩
    · rw [h]; exact List.mem_map_of_mem _ (List.mem_cons_self ..)
    · rw [h]; exact List.mem_map_of_mem _ (List.mem_cons_of_mem _ hx)
  · rcases foldl_max_attained Prod.snd rest p.2 with h | ⟨x, hx, h⟩
    · rw [h]; exact List.mem_map_of_mem _ (List.mem_cons_self ..)
    · rw [h]; exact List.mem_map_of_mem _ (List.mem_cons_of_mem _ hx)
  · simp [step_domain, get_bounds]
  · intro q hq
    have hxlo : rest.foldl (fun a r => min a r.1) p.1 ≤ q.1 := by
      rcases List.mem_cons.mp hq with h | h
      · exact h ▸ foldl_min_le_init _ _ _
      · exact foldl_min_le_mem _ _ _ _ h
    have hxhi : q.1 ≤ rest.foldl (fun a r => max a r.1) p.1 := by
      rcases List.mem_cons.mp hq with h | h
      · exact h ▸ le_foldl_max_init _ _ _
      · exact le_foldl_max_mem _ _ _ _ h
    have hylo : rest.foldl (fun a r => min a r.2) p.2 ≤ q.2 := by
      rcases List.mem_cons.mp hq with h | h
      · exact h ▸ foldl_min_le_init _ _ _
      · exact foldl_min_le_mem _ _ _ _ h
    have hyhi : q.2 ≤ rest.foldl (fun a r => max a r.2) p.2 := by
      rcases List.mem_cons.mp hq with h | h
      · exact h ▸ le_foldl_max_init _ _ _
      · exact le_foldl_max_mem _ _ _ _ h
    have hx : rest.foldl (fun a r => max a r.1) p.1 -
        rest.foldl (fun a r => min a r.1) p.1 ≤
        max (rest.foldl (fun a r => max a r.1) p.1 -
              rest.foldl (fun a r => min a r.1) p.1)
            (rest.foldl (fun a r => max a r.2) p.2 -
              rest.foldl (fun a r => min a r.2) p.2) := le_max_left _ _
    have hy : rest.foldl (fun a r => max a r.2) p.2 -
        rest.foldl (fun a r => min a r.2) p.2 ≤
        max (rest.foldl (fun a r => max a r.1) p.1 -
              rest.foldl (fun a r => min a r.1) p.1)
            (rest.foldl (fun a r => max a r.2) p.2 -
              rest.foldl (fun a r => min a r.2) p.2) := le_max_right _ _
    exact ⟨by linarith, by linarith, by linarith, by linarith⟩

/-- Witness for C2 on the concrete positions `[(0,0), (4,2)]`. -/
theorem bounds_square_domain_witness :
    ([((0 : ℚ), (0 : ℚ)), (4, 2)] : List (ℚ × ℚ)) ≠ [] ∧
    (∃ xlo xhi ylo yhi,
      get_bounds [((0 : ℚ), (0 : ℚ)), (4, 2)] = some ((xlo, xhi), (ylo, yhi)) ∧
      (∀ p ∈ [((0 : ℚ), (0 : ℚ)), (4, 2)],
        xlo ≤ p.1 ∧ p.1 ≤ xhi ∧ ylo ≤ p.2 ∧ p.2 ≤ yhi) ∧
      xlo ∈ [((0 : ℚ), (0 : ℚ)), (4, 2)].map Prod.fst ∧
      xhi ∈ [((0 : ℚ), (0 : ℚ)), (4, 2)].map Prod.fst ∧
      ylo ∈ [((0 : ℚ), (0 : ℚ)), (4, 2)].map Prod.snd ∧
      yhi ∈ [((0 : ℚ), (0 : ℚ)), (4, 2)].map Prod.snd ∧
      step_domain [((0 : ℚ), (0 : ℚ)), (4, 2)] =
        some (((xlo + xhi) / 2, (ylo + yhi) / 2), max (xhi - xlo) (yhi - ylo)) ∧
      (∀ p ∈ [((0 : ℚ), (0 : ℚ)), (4, 2)],
        (xlo + xhi) / 2 - max (xhi - xlo) (yhi - ylo) / 2 ≤ p.1 ∧
        p.1 ≤ (xlo + xhi) / 2 + max (xhi - xlo) (yhi - ylo) / 2 ∧
        (ylo + yhi) / 2 - max (xhi - xlo) (yhi - ylo) / 2 ≤ p.2 ∧
        p.2 ≤ (ylo + yhi) / 2 + max (xhi - xlo) (yhi - ylo) / 2)) :=
  ⟨by decide, bounds_square_domain [((0 : ℚ), (0 : ℚ)), (4, 2)] (by decide)⟩

/-- C7: `get_bounds` aborts (panics on `unwrap`) exactly when the position
list is empty; on any non-empty list it returns a result.  It is a pure
function, so it has no side effects. -/
theorem get_bounds_none_iff_empty (positions : List (ℚ × ℚ)) :
    get_bounds positions = none ↔ positions = [] := by
  cases positions <;> simp [get_bounds]

/-- Fuel-indexed splitting of a list into contiguous chunks of size `c`
(the last chunk may be shorter).  With `fuel ≥ l.length` and `c ≥ 1` this
computes exactly the chunk decomposition produced by `par_chunks(c)`. -/
def chunksAux {α : Type} : ℕ → ℕ → List α → List (List α)
  | 0, _, _ => []
  | _ + 1, _, [] => []
  | fuel + 1, c, x :: xs => (x :: xs).take c :: chunksAux fuel c ((x :: xs).drop c)

/-- Embedding of `slice.par_chunks(c)` (rayon): contiguous chunks of size
`c`, last one possibly shorter. -/
def chunks {α : Type} (c : ℕ) (l : List α) : List (List α) :=
  chunksAux l.length c l

/-- Embedding of `bodies_per_thread` (main.rs line 130):
`local_bodies.len() / n_threads + 1` with integer division. -/
def bodies_per_thread (L T : ℕ) : ℕ :=
  L / T + 1

/-- Embedding of the shard decomposition performed by
`local_bodies.par_chunks(bodies_per_thread)` (main.rs lines 130-134). -/
def shards (bodies : List Body) (T : ℕ) : List (List Body) :=
  chunks (bodies_per_thread bodies.length T) bodies

/-- Embedding of the insertion guard (main.rs lines 138-142): within one
shard, `thread_root.insert(b)` is called exactly on the bodies with
`b.mass > 0`. -/
def insert_calls (bs : List Body) : List Body :=
  bs.filter (fun b => decide (0 < b.mass))

/-- Embedding of the force-phase guard (main.rs lines 213-218): the bodies
on which `calculate_force` and `calc_velocity` are invoked are exactly
those with `b.mass != 0`. -/
def calc_velocity_calls (bodies : List Body) : List Body :=
  bodies.filter (fun b => decide (b.mass ≠ 0))

lemma chunksAux_nil {α : Type} (fuel c : ℕ) :
    chunksAux fuel c ([] : List α) = [] := by
  cases fuel <;> rfl

/-- Concatenating the chunks gives back the original list. -/
lemma chunksAux_flatten {α : Type} (c : ℕ) (hc : 1 ≤ c) :
    ∀ fuel (l : List α), l.length ≤ fuel → (chunksAux fuel c l).flatten = l := by
  intro fuel
  induction fuel with
  | zero =>
    intro l hl
    rw [List.length_eq_zero.mp (Nat.le_zero.mp hl)]
    rfl
  | succ fuel ih =>
    intro l hl
    match l with
    | [] => rfl
    | x :: xs =>
      have hrec := ih ((x :: xs).drop c)
        (by simp only [List.length_drop, List.length_cons] at hl ⊢; omega)
      show ((x :: xs).take c :: chunksAux fuel c ((x :: xs).drop c)).flatten = x :: xs
      rw [List.flatten_cons, hrec, List.take_append_drop]

/-- The number of chunks is the ceiling `(length + c - 1) / c`. -/
lemma chunksAux_length {α : Type} (c : ℕ) (hc : 1 ≤ c) :
    ∀ fuel (l : List α), l.length ≤ fuel →
      (chunksAux fuel c l).length = (l.length + c - 1) / c := by
  intro fuel
  induction fuel with
  | zero =>
    intro l hl
    rw [List.length_eq_zero.mp (Nat.le_zero.mp hl)]
    simp only [chunksAux_nil, List.length_nil, Nat.zero_add]
    exact (Nat.div_eq_of_lt (by omega)).symm
  | succ fuel ih =>
    intro l hl
    match l with
    | [] =>
      simp only [chunksAux_nil, List.length_nil, Nat.zero_add]
      exact (Nat.div_eq_of_lt (by omega)).symm
    | x :: xs =>
      have hdrop : ((x :: xs).drop c).length = (x :: xs).length - c := by
        simp [List.length_drop]
      have hrec := ih ((x :: xs).drop c)
        (by simp only [List.length_drop, List.length_cons] at hl ⊢; omega)
      show ((x :: xs).take c :: chunksAux fuel c ((x :: xs).drop c)).length = _
      rw [List.length_cons, hrec, hdrop]
      have hlen : 1 ≤ (x :: xs).length := by simp
      rcases le_or_lt (x :: xs).length c with h | h
      · have h1 : (x :: xs).length - c = 0 := by omega
        rw [h1]
        have h2 : (0 + c - 1) / c = 0 := Nat.div_eq_of_lt (by omega)
        have h3 : ((x :: xs).length + c - 1) / c = 1 :=
          Nat.div_eq_of_lt_le (by omega) (by omega)
        rw [h2, h3]
      · have h1 : (x :: xs).length - c + c - 1 = (x :: xs).length - 1 := by omega
        have h2 : (x :: xs).length + c - 1 = ((x :: xs).length - 1) + c := by omega
        rw [h1, h2, Nat.add_div_right _ (by omega : 0 < c)]

/-- Every chunk is non-empty and of size at most `c`. -/
lemma chunksAux_mem {α : Type} (c : ℕ) (hc : 1 ≤ c) :
    ∀ fuel (l : List α), l.length ≤ fuel →
      ∀ s ∈ chunksAux fuel c l, 0 < s.length ∧ s.length ≤ c := by
  intro fuel
  induction fuel with
  | zero =>
    intro l hl s hs
    rw [List.length_eq_zero.mp (Nat.le_zero.mp hl)] at hs
    cases hs
  | succ fuel ih =>
    intro l hl s hs
    match l with
    | [] => cases hs
    | x :: xs =>
      rcases List.mem_cons.mp hs with h | h
      · subst h
        constructor
        · simp only [List.length_take, List.length_cons]
          omega
        · simp only [List.length_take, List.length_cons]
          omega
      · exact ih ((x :: xs).drop c)
          (by simp only [List.length_drop, List.length_cons] at hl ⊢; omega) s h

/-- Every chunk other than the last has size exactly `c`. -/
lemma chunksAux_getD {α : Type} (c : ℕ) (hc : 1 ≤ c) :
    ∀ fuel (l : List α), l.length ≤ fuel →
      ∀ i, i + 1 < (chunksAux fuel c l).length →
        ((chunksAux fuel c l).getD i []).length = c := by
  intro fuel
  induction fuel with
  | zero =>
    intro l hl i hi
    rw [List.length_eq_zero.mp (Nat.le_zero.mp hl)] at hi
    simp [chunksAux] at hi
  | succ fuel ih =>
    intro l hl i hi
    match l with
    | [] => simp [chunksAux] at hi
    | x :: xs =>
      have hstep : chunksAux (fuel + 1) c (x :: xs) =
          (x :: xs).take c :: chunksAux fuel c ((x :: xs).drop c) := rfl
      rw [hstep] at hi ⊢
      have hdlen : ((x :: xs).drop c).length ≤ fuel := by
        simp only [List.length_drop, List.length_cons] at hl ⊢; omega
      match i with
      | 0 =>
        have hne : (x :: xs).drop c ≠ [] := by
          intro hnil
          rw [hnil, chunksAux_nil] at hi
          simp at hi
        have hlen : c < (x :: xs).length := by
          by_contra hcon
          exact hne (List.drop_eq_nil_of_le (by omega))
        simp only [List.getD_cons_zero, List.length_take, List.length_cons]
        simp only [List.length_cons] at hlen
        omega
      | i + 1 =>
        rw [List.length_cons] at hi
        rw [List.getD_cons_succ]
        exact ih ((x :: xs).drop c) hdlen i (by omega)

/-- With chunk size `L / T + 1`, the number of chunks of an `L`-element
list is at most `T`. -/
lemma chunk_count_le (L T : ℕ) (hL : 1 ≤ L) (hT : 1 ≤ T) :
    (L + (L / T + 1) - 1) / (L / T + 1) ≤ T := by
  have hk := Nat.div_add_mod L T
  have hm : L % T < T := Nat.mod_lt _ (by omega)
  rw [Nat.div_le_iff_le_mul_add_pred (Nat.succ_pos (L / T))]
  have h1 : (L / T + 1) * T = L / T * T + T := by ring
  have h2 : L / T * T = T * (L / T) := Nat.mul_comm _ _
  simp only [Nat.succ_eq_add_one]
  omega

/-- C4 counterexample: a local slice of four bodies with four threads is
split into two shards, not four, because the chunk size is
`4 / 4 + 1 = 2`. -/
theorem shard_count_counterexample :
    ¬ ((shards [Body.mk 0 1 (0, 0) (0, 0), Body.mk 1 1 (1, 0) (0, 0),
                Body.mk 2 1 (2, 0) (0, 0), Body.mk 3 1 (3, 0) (0, 0)] 4).length = 4) := by
  decide

/-- C4 amended: for a non-empty local slice and `T ≥ 1` threads, the build
phase splits the slice into contiguous chunks of size `L / T + 1` (the
last chunk may be smaller but is non-empty); the number of shards is the
ceiling `(L + c - 1) / c` of `L / c`, which is at most `T` (not always
exactly `T`), and the concatenation of the shards in order is the
original slice. -/
theorem shard_partition_amended (bodies : List Body) (T : ℕ)
    (hne : bodies ≠ []) (hT : 1 ≤ T) :
    (shards bodies T).flatten = bodies ∧
    (shards bodies T).length =
      (bodies.length + bodies_per_thread bodies.length T - 1) /
        bodies_per_thread bodies.length T ∧
    (shards bodies T).length ≤ T ∧
    (∀ i, i + 1 < (shards bodies T).length →
      ((shards bodies T).getD i []).length = bodies_per_thread bodies.length T) ∧
    (∀ s ∈ shards bodies T,
      0 < s.length ∧ s.length ≤ bodies_per_thread bodies.length T) := by
  have hc : 1 ≤ bodies_per_thread bodies.length T := by
    simp [bodies_per_thread]
  have hL : 1 ≤ bodies.length := by
    cases bodies with
    | nil => exact absurd rfl hne
    | cons x xs => simp
  refine ⟨chunksAux_flatten _ hc _ _ le_rfl,
          chunksAux_length _ hc _ _ le_rfl, ?_, ?_, ?_⟩
  · show (chunksAux bodies.length (bodies_per_thread bodies.length T) bodies).length ≤ T
    rw [chunksAux_length _ hc _ _ le_rfl]
    exact chunk_count_le bodies.length T hL hT
  · exact chunksAux_getD _ hc _ _ le_rfl
  · exact chunksAux_mem _ hc _ _ le_rfl

/-- Witness for the amended C4 on four concrete bodies with three
threads: chunk size is `4 / 3 + 1 = 2`, giving two shards of two. -/
theorem shard_partition_amended_witness :
    (([Body.mk 0 1 (0, 0) (0, 0), Body.mk 1 1 (1, 0) (0, 0),
       Body.mk 2 1 (2, 0) (0, 0), Body.mk 3 1 (3, 0) (0, 0)] : List Body) ≠ [] ∧
     (1 : ℕ) ≤ 3) ∧
    ((shards [Body.mk 0 1 (0, 0) (0, 0), Body.mk 1 1 (1, 0) (0, 0),
              Body.mk 2 1 (2, 0) (0, 0), Body.mk 3 1 (3, 0) (0, 0)] 3).flatten =
       [Body.mk 0 1 (0, 0) (0, 0), Body.mk 1 1 (1, 0) (0, 0),
        Body.mk 2 1 (2, 0) (0, 0), Body.mk 3 1 (3, 0) (0, 0)] ∧
     (shards [Body.mk 0 1 (0, 0) (0, 0), Body.mk 1 1 (1, 0) (0, 0),
              Body.mk 2 1 (2, 0) (0, 0), Body.mk 3 1 (3, 0) (0, 0)] 3).length =
       ([Body.mk 0 1 (0, 0) (0, 0), Body.mk 1 1 (1, 0) (0, 0),
         Body.mk 2 1 (2, 0) (0, 0), Body.mk 3 1 (3, 0) (0, 0)].length +
          bodies_per_thread [Body.mk 0 1 (0, 0) (0, 0), Body.mk 1 1 (1, 0) (0, 0),
            Body.mk 2 1 (2, 0) (0, 0), Body.mk 3 1 (3, 0) (0, 0)].length 3 - 1) /
         bodies_per_thread [Body.mk 0 1 (0, 0) (0, 0), Body.mk 1 1 (1, 0) (0, 0),
            Body.mk 2 1 (2, 0) (0, 0), Body.mk 3 1 (3, 0) (0, 0)].length 3 ∧
     (shards [Body.mk 0 1 (0, 0) (0, 0), Body.mk 1 1 (1, 0) (0, 0),
              Body.mk 2 1 (2, 0) (0, 0), Body.mk 3 1 (3, 0) (0, 0)] 3).length ≤ 3 ∧
     (∀ i, i + 1 < (shards [Body.mk 0 1 (0, 0) (0, 0), Body.mk 1 1 (1, 0) (0, 0),
              Body.mk 2 1 (2, 0) (0, 0), Body.mk 3 1 (3, 0) (0, 0)] 3).length →
       ((shards [Body.mk 0 1 (0, 0) (0, 0), Body.mk 1 1 (1, 0) (0, 0),
              Body.mk 2 1 (2, 0) (0, 0), Body.mk 3 1 (3, 0) (0, 0)] 3).getD i []).length =
         bodies_per_thread [Body.mk 0 1 (0, 0) (0, 0), Body.mk 1 1 (1, 0) (0, 0),
            Body.mk 2 1 (2, 0) (0, 0), Body.mk 3 1 (3, 0) (0, 0)].length 3) ∧
     (∀ s ∈ shards [Body.mk 0 1 (0, 0) (0, 0), Body.mk 1 1 (1, 0) (0, 0),
              Body.mk 2 1 (2, 0) (0, 0), Body.mk 3 1 (3, 0) (0, 0)] 3,
       0 < s.length ∧ s.length ≤
         bodies_per_thread [Body.mk 0 1 (0, 0) (0, 0), Body.mk 1 1 (1, 0) (0, 0),
            Body.mk 2 1 (2, 0) (0, 0), Body.mk 3 1 (3, 0) (0, 0)].length 3)) :=
  ⟨⟨by decide, by decide⟩,
   shard_partition_amended
     [Body.mk 0 1 (0, 0) (0, 0), Body.mk 1 1 (1, 0) (0, 0),
      Body.mk 2 1 (2, 0) (0, 0), Body.mk 3 1 (3, 0) (0, 0)] 3 (by decide) (by decide)⟩

/-- C3: a zero-mass padding body is never among the bodies passed to
`insert` in any shard of the sharded build, and the force/integration
phase leaves it exactly unchanged (the loop returns before calling
`calculate_force`). -/
theorem padding_body_untouched (bodies : List Body) (T : ℕ)
    (force : Body → ℚ × ℚ) (dt : ℚ) (b : Body) (h : b.mass = 0) :
    (∀ s ∈ shards bodies T, b ∉ insert_calls s) ∧
    update_body force dt b = b := by
  constructor
  · intro s _ hb
    have hpos : 0 < b.mass := by
      have := (List.mem_filter.mp hb).2
      simpa using this
    rw [h] at hpos
    exact absurd hpos (lt_irrefl 0)
  · simp [update_body, h]

/-- Witness for C3 on a concrete zero-mass padding body. -/
theorem padding_body_untouched_witness :
    (Body.mk 5 0 (1, 2) (3, 4)).mass = 0 ∧
    ((∀ s ∈ shards [Body.mk 0 1 (0, 0) (0, 0), Body.mk 5 0 (1, 2) (3, 4)] 1,
        Body.mk 5 0 (1, 2) (3, 4) ∉ insert_calls s) ∧
     update_body (fun _ => (7, 8)) 1 (Body.mk 5 0 (1, 2) (3, 4)) =
       Body.mk 5 0 (1, 2) (3, 4)) :=
  ⟨by decide,
   padding_body_untouched [Body.mk 0 1 (0, 0) (0, 0), Body.mk 5 0 (1, 2) (3, 4)] 1
     (fun _ => (7, 8)) 1 (Body.mk 5 0 (1, 2) (3, 4)) (by decide)⟩

/-- Modelled from the spec: the spatial quad-tree node type (`TreeNode`
from the missing `tree.rs`).  Per spec section 3 a node covers a square
region given by `center` and `size` and is one of three variants: Empty
(no body), Leaf (one body: id, mass, position), or Internal (four child
quadrants in a fixed order plus aggregate mass and center of mass).
Floats are modelled as `ℚ`, so bit-for-bit float equality becomes `ℚ`
equality. -/
inductive STree where
  | empty (center : ℚ × ℚ) (size : ℚ) : STree
  | leaf (center : ℚ × ℚ) (size : ℚ) (bid : ℕ) (bmass : ℚ) (bpos : ℚ × ℚ) : STree
  | internal (center : ℚ × ℚ) (size : ℚ) (mass : ℚ) (com : ℚ × ℚ)
      (q1 q2 q3 q4 : STree) : STree
deriving DecidableEq

/-- Atomic units of the serialized form: a structure tag (also used for
the body id) or a numeric field. -/
inductive Tok where
  | tag (n : ℕ) : Tok
  | num (q : ℚ) : Tok
deriving DecidableEq

/-- Modelled from the spec: the Tree Codec encoder
(`bitcode::serialize(&root)` in main.rs line 161 together with the
`Serialize` derivation of the missing `TreeNode`).  Spec section 4.3
requires a deterministic, total encoder covering Empty/Leaf/Internal
variants of arbitrary depth; the encoding is a tag followed by the node's
fields, children serialized in order. -/
def encode : STree → List Tok
  | .empty c s => [.tag 0, .num c.1, .num c.2, .num s]
  | .leaf c s i m p =>
      [.tag 1, .num c.1, .num c.2, .num s, .tag i, .num m, .num p.1, .num p.2]
  | .internal c s m com a b cc d =>
      [.tag 2, .num c.1, .num c.2, .num s, .num m, .num com.1, .num com.2] ++
        encode a ++ encode b ++ encode cc ++ encode d

/-- Fuel-indexed decoder for one node: reads a tag, the node's fields and
(for Internal) four children in order, returning the node and the unread
remainder; `none` models a deserialization failure. -/
def decodeAux : ℕ → List Tok → Option (STree × List Tok)
  | 0, _ => none
  | fuel + 1, toks =>
    match toks with
    | .tag 0 :: .num cx :: .num cy :: .num s :: rest =>
        some (.empty (cx, cy) s, rest)
    | .tag 1 :: .num cx :: .num cy :: .num s :: .tag i :: .num m :: .num px ::
        .num py :: rest =>
        some (.leaf (cx, cy) s i m (px, py), rest)
    | .tag 2 :: .num cx :: .num cy :: .num s :: .num m :: .num comx ::
        .num comy :: rest =>
        match decodeAux fuel rest with
        | none => none
        | some (t1, r1) =>
          match decodeAux fuel r1 with
          | none => none
          | some (t2, r2) =>
            match decodeAux fuel r2 with
            | none => none
            | some (t3, r3) =>
              match decodeAux fuel r3 with
              | none => none
              | some (t4, r4) =>
                  some (.internal (cx, cy) s m (comx, comy) t1 t2 t3 t4, r4)
    | _ => none

/-- Modelled from the spec: the Tree Codec decoder
(`bitcode::deserialize::<TreeNode>` in main.rs lines 193-194).  It
succeeds exactly when the buffer is a complete encoding of one tree with
nothing left over; `none` models the decode failure that the code turns
into a panic via `unwrap`. -/
def decode (toks : List Tok) : Option STree :=
  match decodeAux (toks.length + 1) toks with
  | some (t, []) => some t
  | _ => none

/-- Height of a tree, used as a fuel bound for the decoder. -/
def height : STree → ℕ
  | .empty .. => 1
  | .leaf .. => 1
  | .internal _ _ _ _ a b cc d =>
      1 + max (max (height a) (height b)) (max (height cc) (height d))

lemma height_le_encode_length (t : STree) : height t ≤ (encode t).length := by
  induction t with
  | empty c s => simp [height, encode]
  | leaf c s i m p => simp [height, encode]
  | internal c s m com a b cc d iha ihb ihc ihd =>
    simp only [height, encode, List.length_append, List.length_cons,
      List.length_nil]
    omega

/-- The decoder consumes exactly one encoded tree and returns it together
with the untouched remainder, for any fuel at least the tree's height. -/
lemma decodeAux_encode (t : STree) :
    ∀ fuel rest, height t ≤ fuel →
      decodeAux fuel (encode t ++ rest) = some (t, rest) := by
  induction t with
  | empty c s =>
    intro fuel rest h
    obtain ⟨f, rfl⟩ : ∃ f, fuel = f + 1 := ⟨fuel - 1, by simp [height] at h; omega⟩
    rfl
  | leaf c s i m p =>
    intro fuel rest h
    obtain ⟨f, rfl⟩ : ∃ f, fuel = f + 1 := ⟨fuel - 1, by simp [height] at h; omega⟩
    rfl
  | internal c s m com a b cc d iha ihb ihc ihd =>
    intro fuel rest h
    obtain ⟨f, rfl⟩ : ∃ f, fuel = f + 1 := ⟨fuel - 1, by simp [height] at h; omega⟩
    simp only [height] at h
    have ha : height a ≤ f := by omega
    have hb : height b ≤ f := by omega
    have hc : height cc ≤ f := by omega
    have hd : height d ≤ f := by omega
    simp only [encode, List.cons_append, List.nil_append, List.append_assoc]
    simp only [decodeAux]
    simp only [iha f, ihb f, ihc f, ihd f, ha, hb, hc, hd]

/-- C5: decoding the encoding of any tree (any depth, any mix of
Empty/Leaf/Internal nodes) reproduces the tree exactly, aggregates
included. -/
theorem codec_roundtrip (t : STree) : decode (encode t) = some t := by
  have h := decodeAux_encode t ((encode t).length + 1) []
    (le_trans (height_le_encode_length t) (Nat.le_succ _))
  rw [List.append_nil] at h
  simp [decode, h]

/-- Embedding of the per-buffer deserialization (main.rs lines 184-196):
every received buffer is decoded and each failure is an `unwrap` panic,
so the phase as a whole yields `none` unless every buffer decodes. -/
def decode_all : List (List Tok) → Option (List STree)
  | [] => some []
  | buf :: bufs =>
    match decode buf, decode_all bufs with
    | some t, some ts => some (t :: ts)
    | _, _ => none

/-- Embedding of the merge loop (main.rs lines 199-203): iterate over the
decoded trees with their indices, merging every tree whose index differs
from the caller's rank into the accumulator. -/
def merge_fold {α : Type} (merge : α → α → α) (rank : ℕ) : ℕ → α → List α → α
  | _, acc, [] => acc
  | i, acc, t :: ts =>
      merge_fold merge rank (i + 1) (if i = rank then acc else merge acc t) ts

/-- The merge loop starting from index 0, as in
`all_trees.into_iter().enumerate()`. -/
def merge_all {α : Type} (merge : α → α → α) (rank : ℕ) (root : α)
    (trees : List α) : α :=
  merge_fold merge rank 0 root trees

/-- Embedding of the exchange phase tail (main.rs lines 182-221): decode
all gathered buffers, merge every peer tree into the local root, then run
the force/integration update; a decode failure aborts the step with no
updated bodies. -/
def exchange_phase (merge : STree → STree → STree) (root : STree) (rank : ℕ)
    (bufs : List (List Tok)) (upd : STree → List Body → List Body)
    (bodies : List Body) : Option (List Body) :=
  match decode_all bufs with
  | none => none
  | some ts => some (upd (merge_all merge rank root ts) bodies)

lemma decode_all_none (bufs : List (List Tok)) (buf : List Tok)
    (hb : buf ∈ bufs) (h : decode buf = none) : decode_all bufs = none := by
  induction bufs with
  | nil => cases hb
  | cons x xs ih =>
    rcases List.mem_cons.mp hb with rfl | hx
    · simp [decode_all, h]
    · rw [decode_all, ih hx]
      cases decode x <;> rfl

/-- C8: if any received buffer fails to decode, the exchange phase
returns no result at all: the step aborts without producing updated
bodies (the code panics on `unwrap`), with no retry and no partial
output. -/
theorem decode_failure_aborts (merge : STree → STree → STree) (root : STree)
    (rank : ℕ) (bufs : List (List Tok)) (upd : STree → List Body → List Body)
    (bodies : List Body) (buf : List Tok) (hb : buf ∈ bufs)
    (h : decode buf = none) :
    exchange_phase merge root rank bufs upd bodies = none := by
  rw [exchange_phase, decode_all_none bufs buf hb h]

/-- Witness for C8 on a one-buffer exchange whose buffer bears an unknown
tag. -/
theorem decode_failure_aborts_witness :
    ([Tok.tag 3] ∈ [[Tok.tag 3]] ∧ decode [Tok.tag 3] = none) ∧
    exchange_phase (fun a _ => a) (STree.empty (0, 0) 0) 0 [[Tok.tag 3]]
      (fun _ bs => bs) [] = none :=
  ⟨⟨by decide, by decide⟩,
   decode_failure_aborts (fun a _ => a) (STree.empty (0, 0) 0) 0 [[Tok.tag 3]]
     (fun _ bs => bs) [] [Tok.tag 3] (by decide) (by decide)⟩

/-- Once the running index has passed the rank, the merge loop folds in
every remaining tree. -/
lemma merge_fold_of_lt {α : Type} (merge : α → α → α) (rank : ℕ)
    (l : List α) : ∀ i acc, rank < i →
      merge_fold merge rank i acc l = l.foldl merge acc := by
  induction l with
  | nil => intro i acc h; rfl
  | cons x xs ih =>
    intro i acc h
    show merge_fold merge rank (i + 1) (if i = rank then acc else merge acc x) xs =
      (x :: xs).foldl merge acc
    rw [if_neg (by omega : ¬ i = rank), ih (i + 1) (merge acc x) (by omega),
      List.foldl_cons]

/-- The merge loop from index `i ≤ rank` folds in exactly the trees other
than the one at offset `rank - i`. -/
lemma merge_fold_split {α : Type} (merge : α → α → α) (rank : ℕ)
    (l : List α) : ∀ i acc, i ≤ rank → rank < i + l.length →
      merge_fold merge rank i acc l =
        (l.take (rank - i) ++ l.drop (rank - i + 1)).foldl merge acc := by
  induction l with
  | nil =>
    intro i acc h1 h2
    simp only [List.length_nil, Nat.add_zero] at h2
    omega
  | cons x xs ih =>
    intro i acc h1 h2
    rcases eq_or_lt_of_le h1 with rfl | hlt
    · have e0 : i - i = 0 := by omega
      show merge_fold merge i (i + 1) (if i = i then acc else merge acc x) xs = _
      rw [if_pos rfl, e0, merge_fold_of_lt merge i xs (i + 1) acc (by omega)]
      simp
    · obtain ⟨e, rfl⟩ : ∃ e, rank = i + e + 1 := ⟨rank - i - 1, by omega⟩
      show merge_fold merge (i + e + 1) (i + 1)
          (if i = i + e + 1 then acc else merge acc x) xs = _
      rw [if_neg (by omega : ¬ i = i + e + 1)]
      rw [ih (i + 1) (merge acc x) (by omega)
        (by simp only [List.length_cons] at h2; omega)]
      have e1 : i + e + 1 - i = e + 1 := by omega
      have e2 : i + e + 1 - (i + 1) = e := by omega
      rw [e1, e2, List.take_succ_cons, List.drop_succ_cons, List.cons_append,
        List.foldl_cons]

/-- C6: with `P` decoded trees (one per rank) and the caller's rank `r`,
the merge loop merges exactly the trees of the `P - 1` other ranks, each
once, in increasing rank order, and never the caller's own tree: the loop
equals a left fold over the list with the entry at index `r` removed. -/
theorem exchange_merge_skips_own {α : Type} (merge : α → α → α) (root : α)
    (trees : List α) (rank : ℕ) (hP : 1 < trees.length)
    (hr : rank < trees.length) :
    merge_all merge rank root trees =
      (trees.take rank ++ trees.drop (rank + 1)).foldl merge root ∧
    (trees.take rank ++ trees.drop (rank + 1)).length = trees.length - 1 := by
  constructor
  · have h := merge_fold_split merge rank trees 0 root (Nat.zero_le _)
      (by omega)
    simpa using h
  · simp only [List.length_append, List.length_take, List.length_drop]
    omega

/-- Witness for C6: three trees (modelled as singleton lists so the merge
order is visible), rank 1; the loop merges trees 0 and 2 only. -/
theorem exchange_merge_skips_own_witness :
    (1 < ([[10], [20], [30]] : List (List ℕ)).length ∧
     1 < ([[10], [20], [30]] : List (List ℕ)).length) ∧
    (merge_all (fun a b => a ++ b) 1 [0] ([[10], [20], [30]] : List (List ℕ)) =
      (([[10], [20], [30]] : List (List ℕ)).take 1 ++
        ([[10], [20], [30]] : List (List ℕ)).drop 2).foldl (fun a b => a ++ b) [0] ∧
     (([[10], [20], [30]] : List (List ℕ)).take 1 ++
        ([[10], [20], [30]] : List (List ℕ)).drop 2).length =
       ([[10], [20], [30]] : List (List ℕ)).length - 1) :=
  ⟨⟨by decide, by decide⟩,
   exchange_merge_skips_own (fun a b => a ++ b) [0] [[10], [20], [30]] 1
     (by decide) (by decide)⟩

/-- C10: every body reaching `calc_velocity` in the force/integration
phase has nonzero mass (zero-mass bodies return before the force and
velocity computations), so the division `f / mass` is never a division by
zero; on such a body the velocity written is exactly `calc_velocity`. -/
theorem calc_velocity_nonzero_mass (bodies : List Body)
    (force : Body → ℚ × ℚ) (dt : ℚ) (b : Body)
    (hb : b ∈ calc_velocity_calls bodies) :
    b.mass ≠ 0 ∧
    (update_body force dt b).velocity =
      calc_velocity b.velocity (force b) b.mass dt := by
  have h : b.mass ≠ 0 := by
    have := (List.mem_filter.mp hb).2
    simpa using this
  exact ⟨h, by simp [update_body, h]⟩

/-- Witness for C10 on a concrete body of unit mass. -/
theorem calc_velocity_nonzero_mass_witness :
    Body.mk 0 1 (0, 0) (0, 0) ∈
      calc_velocity_calls [Body.mk 0 1 (0, 0) (0, 0), Body.mk 1 0 (1, 1) (0, 0)] ∧
    ((Body.mk 0 1 (0, 0) (0, 0)).mass ≠ 0 ∧
     (update_body (fun _ => (2, 3)) 1 (Body.mk 0 1 (0, 0) (0, 0))).velocity =
       calc_velocity (Body.mk 0 1 (0, 0) (0, 0)).velocity
         ((fun (_ : Body) => ((2 : ℚ), (3 : ℚ))) (Body.mk 0 1 (0, 0) (0, 0)))
         (Body.mk 0 1 (0, 0) (0, 0)).mass 1) :=
  ⟨by decide,
   calc_velocity_nonzero_mass [Body.mk 0 1 (0, 0) (0, 0), Body.mk 1 0 (1, 1) (0, 0)]
     (fun _ => (2, 3)) 1 (Body.mk 0 1 (0, 0) (0, 0)) (by decide)⟩

/-- Embedding of the padded body count (main.rs lines 250-253):
`bodies_per_proc = (n_bodies / n_nodes).ceil()`.  The `f64` ceiling of the
quotient is modelled as the exact natural ceiling `(n + P - 1) / P`. -/
def bodies_per_proc (n P : ℕ) : ℕ :=
  (n + P - 1) / P

/-- Embedding of `filled_n = bodies_per_proc * n_nodes` (main.rs line 253). -/
def filled_n (n P : ℕ) : ℕ :=
  bodies_per_proc n P * P

/-- Embedding of `extra_n = filled_n - n_bodies` (main.rs line 254). -/
def extra_n (n P : ℕ) : ℕ :=
  filled_n n P - n

/-- Embedding of a padding entry of the global array (main.rs lines
256-276): index `i` beyond `n_bodies` keeps `id = i` and gets mass,
position and velocity zero (the generated value lists are extended with
zeros). -/
def pad_body (i : ℕ) : Body :=
  Body.mk i 0 (0, 0) (0, 0)

/-- Embedding of the padded global body array: the `n` generated bodies
followed by `extra_n` zero-mass padding bodies at the end. -/
def padded_bodies (gen : List Body) (P : ℕ) : List Body :=
  gen ++ (List.range' gen.length (extra_n gen.length P)).map pad_body

/-- Embedding of the local slice (main.rs lines 283-284):
`all_bodies[rank * bodies_per_proc..(rank + 1) * bodies_per_proc]`. -/
def local_slice (all : List Body) (rank bpp : ℕ) : List Body :=
  (all.drop (rank * bpp)).take bpp

/-- The padded length `bodies_per_proc * P` is the smallest multiple of
`P`-sized slices covering `n`: at least `n`, and less than `n + P`. -/
lemma filled_n_bounds (n P : ℕ) (hP : 1 ≤ P) :
    n ≤ filled_n n P ∧ filled_n n P ≤ n + P - 1 := by
  have h1 := Nat.div_mul_le_self (n + P - 1) P
  have h2 : n + P - 1 < ((n + P - 1) / P + 1) * P := by
    have h : (n + P - 1) / P < (n + P - 1) / P + 1 := by omega
    rwa [Nat.div_lt_iff_lt_mul (by omega : 0 < P)] at h
  have h3 : ((n + P - 1) / P + 1) * P = (n + P - 1) / P * P + P := by ring
  simp only [filled_n, bodies_per_proc]
  generalize hX : (n + P - 1) / P * P = X at h1 h3 ⊢
  generalize hY : ((n + P - 1) / P + 1) * P = Y at h2 h3
  omega

/-- Splitting a `take` of a sum into a `take` and a `take` after `drop`. -/
lemma take_add_split {α : Type} : ∀ (m : ℕ) (n : ℕ) (l : List α),
    l.take (m + n) = l.take m ++ (l.drop m).take n := by
  intro m
  induction m with
  | zero => intro n l; simp
  | succ m ih =>
    intro n l
    cases l with
    | nil => simp
    | cons x xs =>
      have h : m + 1 + n = (m + n) + 1 := by omega
      rw [h, List.take_succ_cons, List.take_succ_cons, List.drop_succ_cons,
        ih n xs, List.cons_append]

/-- Concatenating the `P` contiguous `c`-sized slices reproduces the first
`c * P` elements. -/
lemma flatten_slices {α : Type} (c : ℕ) :
    ∀ (P : ℕ) (l : List α), c * P ≤ l.length →
      ((List.range P).map (fun r => (l.drop (r * c)).take c)).flatten =
        l.take (c * P) := by
  intro P
  induction P with
  | zero => intro l h; simp
  | succ P ih =>
    intro l h
    rw [List.range_succ, List.map_append, List.flatten_append]
    have hle : c * P ≤ l.length := by
      have : c * P ≤ c * (P + 1) := Nat.mul_le_mul_left _ (by omega)
      omega
    rw [ih l hle]
    simp only [List.map_cons, List.map_nil, List.flatten_cons, List.flatten_nil,
      List.append_nil]
    have hmul : c * (P + 1) = c * P + c := by ring
    rw [hmul, take_add_split (c * P) c l, Nat.mul_comm P c]

/-- C9: with `n ≥ 1` bodies and `P ≥ 1` processes, the padded global array
has length `ceil(n/P) * P`, its first `n` entries are the generated bodies
and the remaining entries are zero-mass padding at the end; every rank's
local slice has exactly `ceil(n/P)` bodies, and the slices concatenated in
rank order reproduce the whole padded array (hence they are pairwise
disjoint contiguous blocks). -/
theorem padding_layout (n P : ℕ) (gen : List Body) (hn : 1 ≤ n) (hP : 1 ≤ P)
    (hg : gen.length = n) :
    (padded_bodies gen P).length = bodies_per_proc n P * P ∧
    (padded_bodies gen P).take n = gen ∧
    (∀ b ∈ (padded_bodies gen P).drop n, b.mass = 0) ∧
    (∀ r, r < P →
      (local_slice (padded_bodies gen P) r (bodies_per_proc n P)).length =
        bodies_per_proc n P) ∧
    ((List.range P).map
        (fun r => local_slice (padded_bodies gen P) r (bodies_per_proc n P))).flatten =
      padded_bodies gen P := by
  have hb := filled_n_bounds n P hP
  have hlen : (padded_bodies gen P).length = filled_n n P := by
    simp only [padded_bodies, List.length_append, List.length_map,
      List.length_range', hg, extra_n]
    omega
  refine ⟨hlen, ?_, ?_, ?_, ?_⟩
  · rw [padded_bodies, ← hg, List.take_left]
  · intro b hbmem
    rw [padded_bodies, ← hg, List.drop_left] at hbmem
    obtain ⟨i, _, rfl⟩ := List.mem_map.mp hbmem
    rfl
  · intro r hr
    have h2 : bodies_per_proc n P * (r + 1) ≤ bodies_per_proc n P * P :=
      Nat.mul_le_mul_left _ (by omega)
    have h3 : bodies_per_proc n P * (r + 1) =
        r * bodies_per_proc n P + bodies_per_proc n P := by ring
    simp only [local_slice, List.length_take, List.length_drop, hlen, filled_n]
    generalize hA : bodies_per_proc n P * (r + 1) = A at h2 h3
    generalize hB : bodies_per_proc n P * P = B at h2 ⊢
    generalize hC : r * bodies_per_proc n P = C at h3 ⊢
    omega
  · have hle : bodies_per_proc n P * P ≤ (padded_bodies gen P).length := by
      rw [hlen]
      exact Nat.le_refl _
    have hf := flatten_slices (bodies_per_proc n P) P (padded_bodies gen P) hle
    show ((List.range P).map
        (fun r => ((padded_bodies gen P).drop (r * bodies_per_proc n P)).take
          (bodies_per_proc n P))).flatten = padded_bodies gen P
    rw [hf]
    exact List.take_of_length_le (by rw [hlen]; exact Nat.le_refl _)

/-- Witness for C9 with three concrete generated bodies over two
processes: `bodies_per_proc = 2`, one padding body is appended. -/
theorem padding_layout_witness :
    ((1 : ℕ) ≤ 3 ∧ (1 : ℕ) ≤ 2 ∧
     ([Body.mk 0 4 (1, 1) (0, 0), Body.mk 1 5 (2, 2) (0, 0),
       Body.mk 2 6 (3, 3) (0, 0)] : List Body).length = 3) ∧
    ((padded_bodies [Body.mk 0 4 (1, 1) (0, 0), Body.mk 1 5 (2, 2) (0, 0),
        Body.mk 2 6 (3, 3) (0, 0)] 2).length = bodies_per_proc 3 2 * 2 ∧
     (padded_bodies [Body.mk 0 4 (1, 1) (0, 0), Body.mk 1 5 (2, 2) (0, 0),
        Body.mk 2 6 (3, 3) (0, 0)] 2).take 3 =
       [Body.mk 0 4 (1, 1) (0, 0), Body.mk 1 5 (2, 2) (0, 0),
        Body.mk 2 6 (3, 3) (0, 0)] ∧
     (∀ b ∈ (padded_bodies [Body.mk 0 4 (1, 1) (0, 0), Body.mk 1 5 (2, 2) (0, 0),
        Body.mk 2 6 (3, 3) (0, 0)] 2).drop 3, b.mass = 0) ∧
     (∀ r, r < 2 →
       (local_slice (padded_bodies [Body.mk 0 4 (1, 1) (0, 0),
          Body.mk 1 5 (2, 2) (0, 0), Body.mk 2 6 (3, 3) (0, 0)] 2) r
          (bodies_per_proc 3 2)).length = bodies_per_proc 3 2) ∧
     ((List.range 2).map
        (fun r => local_slice (padded_bodies [Body.mk 0 4 (1, 1) (0, 0),
          Body.mk 1 5 (2, 2) (0, 0), Body.mk 2 6 (3, 3) (0, 0)] 2) r
          (bodies_per_proc 3 2))).flatten =
       padded_bodies [Body.mk 0 4 (1, 1) (0, 0), Body.mk 1 5 (2, 2) (0, 0),
         Body.mk 2 6 (3, 3) (0, 0)] 2) :=
  ⟨⟨by decide, by decide, by decide⟩,
   padding_layout 3 2
     [Body.mk 0 4 (1, 1) (0, 0), Body.mk 1 5 (2, 2) (0, 0),
      Body.mk 2 6 (3, 3) (0, 0)] (by decide) (by decide) (by decide)⟩

end NBody
